import Mathlib

/-!
Verification of the client-side D-Bus marshaling layer of
`stratisd_client_dbus/_implementation.py`.

The Python module is shallowly embedded: host-side Python values become the
inductive type `Value`; each Python `raise` site becomes a constructor of
`DbusError`; functions that can raise return `Except DbusError _` or
`Option _`.  The external signature-processing facility
(`into_dbus_python.xformers`) is not part of this repository, so it is
modelled from the specification's description of the wire-signature
mini-language and of the per-component encoders.
-/

/-- A host-side value, as handed to the marshaling layer by a caller.
`Value.null` models Python `None` (the absent sentinel). -/
inductive Value where
  | null : Value
  | bool (b : Bool) : Value
  | int (n : Int) : Value
  | str (s : String) : Value
  | list (vs : List Value) : Value
  | tuple (vs : List Value) : Value
deriving Repr

/-- The distinct failure modes of the layer, one per `raise` site (the Python
code raises `ValueError` with distinct messages) plus the failures of the
external signature facility. -/
inductive DbusError where
  /-- `ValueError("xformation functions do not match")`: encoder count differs
  from the declared parameter count at contract-construction time. -/
  | contractError
  /-- `ValueError("wrong number of objects")`: a Transform was applied to a
  value list of the wrong length. -/
  | arityError
  /-- `ValueError("Bad keys")`: the supplied keyword-argument names do not
  exactly match the declared parameter names. -/
  | unexpectedArguments
  /-- The external signature facility rejected the signature string. -/
  | signatureError
  /-- A wire encoder rejected a host value of the wrong shape. -/
  | encodeError
  /-- Lookup of an undeclared method in a contract table (Python `KeyError`). -/
  | keyError
deriving Repr, DecidableEq

/-- `_option_to_tuple(value, default)`: converts a Python "option" value,
`None` or a value, to a (presence flag, payload) pair. -/
def _option_to_tuple (value default : Value) : Value :=
  match value with
  | .null => .tuple [.bool false, default]
  | v => .tuple [.bool true, v]

/-- `_FALSE = lambda n: lambda x: x`: the identity pre-encoder selector.
Pre-encoders may fail on ill-shaped input in general, hence `Option`. -/
def _FALSE : String → Value → Option Value :=
  fun _ => fun x => some x

/-- The `CreatePool` pre-encoder selector: wraps only the `redundancy`
argument with the option encoding (default `0`). -/
def createPoolInxform : String → Value → Option Value :=
  fun n =>
    if n = "redundancy" then (fun x => some (_option_to_tuple x (.int 0)))
    else (fun x => some x)

/-- One step of the `CreateFilesystems` pre-encoder: a 3-tuple spec
`(x, y, quota)` becomes `(x, y, _option_to_tuple(quota, 0))`. -/
def specTriple (e : Value) : Option Value :=
  match e with
  | .tuple [x, y, quota] => some (.tuple [x, y, _option_to_tuple quota (.int 0)])
  | _ => Option.none

/-- The `CreateFilesystems` pre-encoder selector:
`lambda n: lambda x: [(x, y, _option_to_tuple(quota, 0)) for (x, y, quota) in x]`.
Iterating requires a sequence of 3-tuples; anything else raises. -/
def createFilesystemsInxform : String → Value → Option Value :=
  fun _ => fun x =>
    match x with
    | .list es => (es.mapM specTriple).map Value.list
    | .tuple es => (es.mapM specTriple).map Value.list
    | _ => Option.none

/-- Modelled from the spec: the wire-signature mini-language of the external
signature-processing facility (`into_dbus_python`), which this repository
imports but does not contain.  Primitive codes for byte, boolean, the
integer widths, double, string and object path; compound prefixes for
array-of and tuple-of; the variant ("any") code. -/
inductive DBusType where
  | byte | boolean | int16 | uint16 | int32 | uint32 | int64 | uint64
  | double | string | objectPath | variant
  | array (t : DBusType) : DBusType
  | struct (ts : List DBusType) : DBusType
deriving Repr

mutual

/-- Modelled from the spec: parse one complete type off the front of a
signature character stream.  `fuel` only bounds recursion depth. -/
def parseOne (fuel : Nat) (cs : List Char) : Option (DBusType × List Char) :=
  match fuel with
  | 0 => Option.none
  | fuel + 1 =>
    match cs with
    | [] => Option.none
    | c :: rest =>
      if c = 'y' then some (.byte, rest)
      else if c = 'b' then some (.boolean, rest)
      else if c = 'n' then some (.int16, rest)
      else if c = 'q' then some (.uint16, rest)
      else if c = 'i' then some (.int32, rest)
      else if c = 'u' then some (.uint32, rest)
      else if c = 'x' then some (.int64, rest)
      else if c = 't' then some (.uint64, rest)
      else if c = 'd' then some (.double, rest)
      else if c = 's' then some (.string, rest)
      else if c = 'o' then some (.objectPath, rest)
      else if c = 'v' then some (.variant, rest)
      else if c = 'a' then
        match parseOne fuel rest with
        | some (t, rest2) => some (.array t, rest2)
        | Option.none => Option.none
      else if c = '(' then
        match parseStructBody fuel rest with
        | some (ts, rest2) =>
          if ts.isEmpty then Option.none else some (.struct ts, rest2)
        | Option.none => Option.none
      else Option.none

/-- Modelled from the spec: parse the member types of a tuple type up to the
closing parenthesis. -/
def parseStructBody (fuel : Nat) (cs : List Char) :
    Option (List DBusType × List Char) :=
  match fuel with
  | 0 => Option.none
  | fuel + 1 =>
    match cs with
    | ')' :: rest => some ([], rest)
    | _ =>
      match parseOne fuel cs with
      | some (t, rest) =>
        match parseStructBody fuel rest with
        | some (ts, rest2) => some (t :: ts, rest2)
        | Option.none => Option.none
      | Option.none => Option.none

end

/-- Modelled from the spec: parse a whole character stream as a sequence of
complete types. -/
def parseTypes (fuel : Nat) (cs : List Char) : Option (List DBusType) :=
  match fuel with
  | 0 => Option.none
  | fuel + 1 =>
    match cs with
    | [] => some []
    | _ =>
      match parseOne fuel cs with
      | some (t, rest) =>
        match parseTypes fuel rest with
        | some ts => some (t :: ts)
        | Option.none => Option.none
      | Option.none => Option.none

/-- Modelled from the spec: decompose a signature string into exactly its
top-level type components. -/
def parseSig (s : String) : Option (List DBusType) :=
  parseTypes (2 * s.length + 2) s.toList

/-- The number of top-level components of a signature, when it parses. -/
def sigCount (s : String) : Option Nat :=
  (parseSig s).map List.length

mutual

/-- Modelled from the spec: the per-component wire encoder obtained from the
external signature facility; maps one host value to its wire-ready
representation for one top-level wire type, rejecting values of the wrong
shape.  Integer codes enforce their width. -/
def encodeType (t : DBusType) (v : Value) : Option Value :=
  match t, v with
  | .byte, .int n => if 0 ≤ n ∧ n < 256 then some (.int n) else Option.none
  | .boolean, .bool b => some (.bool b)
  | .int16, .int n =>
    if -32768 ≤ n ∧ n < 32768 then some (.int n) else Option.none
  | .uint16, .int n =>
    if 0 ≤ n ∧ n < 65536 then some (.int n) else Option.none
  | .int32, .int n =>
    if -2147483648 ≤ n ∧ n < 2147483648 then some (.int n) else Option.none
  | .uint32, .int n =>
    if 0 ≤ n ∧ n < 4294967296 then some (.int n) else Option.none
  | .int64, .int n =>
    if -9223372036854775808 ≤ n ∧ n < 9223372036854775808 then some (.int n)
    else Option.none
  | .uint64, .int n =>
    if 0 ≤ n ∧ n < 18446744073709551616 then some (.int n) else Option.none
  | .double, .int n => some (.int n)
  | .string, .str s => some (.str s)
  | .objectPath, .str s => some (.str s)
  | .variant, w => some w
  | .array te, .list vs =>
    match encodeList te vs with
    | some ws => some (.list ws)
    | Option.none => Option.none
  | .struct ts, .tuple vs =>
    match encodeStruct ts vs with
    | some ws => some (.tuple ws)
    | Option.none => Option.none
  | _, _ => Option.none
termination_by structural v

/-- Encode every element of an array value against the element type. -/
def encodeList (t : DBusType) (vs : List Value) : Option (List Value) :=
  match vs with
  | [] => some []
  | v :: rest =>
    match encodeType t v, encodeList t rest with
    | some w, some ws => some (w :: ws)
    | _, _ => Option.none
termination_by structural vs

/-- Encode the fields of a tuple value against the member types, requiring
matching lengths. -/
def encodeStruct (ts : List DBusType) (vs : List Value) :
    Option (List Value) :=
  match ts, vs with
  | [], [] => some []
  | t :: trest, v :: vrest =>
    match encodeType t v, encodeStruct trest vrest with
    | some w, some ws => some (w :: ws)
    | _, _ => Option.none
  | _, _ => Option.none
termination_by structural vs

end

/-- Modelled from the spec: a compiled wire encoder returns the wire value
together with its variant level; the marshaling layer keeps only the value. -/
def wireXform (t : DBusType) (v : Value) : Option (Value × Nat) :=
  (encodeType t v).map (fun w => (w, 0))

/-- Modelled from the spec: `into_dbus_python.xformers(sig)` — an ordered
list of (encoder function, component type) pairs, one per top-level
component of the signature, or a failure for a malformed signature. -/
def xformers (sig : String) :
    Option (List ((Value → Option (Value × Nat)) × DBusType)) :=
  (parseSig sig).map (fun ts => ts.map (fun t => (wireXform t, t)))

/-- The core of a compiled Transform: for each position, apply the
pre-encoder `g`, then the wire encoder `f`, and keep the first component of
the encoder's (value, level) result — `[x for (x, _) in (f(g(a)) for
((f, g), a) in zip(zip(outxforms, inxforms), objects))]`. -/
def zipApply :
    List ((Value → Option (Value × Nat)) × (Value → Option Value)) →
    List Value → Option (List Value)
  | [], [] => some []
  | (f, g) :: fgs, a :: as =>
    match g a with
    | some b =>
      match f b with
      | some out =>
        match zipApply fgs as with
        | some ws => some (out.1 :: ws)
        | Option.none => Option.none
      | Option.none => Option.none
    | Option.none => Option.none
  | _, _ => Option.none

/-- `_info_to_xformer(names, inxform, sig)`: builds a Transform.  Compiles
the signature, checks that the encoder count equals the declared parameter
count (else `ContractError`), and yields the call-time transform, which
checks the value count (else `ArityError`) and encodes positionally. -/
def _info_to_xformer (names : List String)
    (inxform : String → Value → Option Value) (sig : String) :
    Except DbusError (List Value → Except DbusError (List Value)) :=
  match xformers sig with
  | Option.none => .error .signatureError
  | some pairs =>
    let inxforms := names.map inxform
    let outxforms := pairs.map Prod.fst
    let expectedLength := names.length
    if outxforms.length ≠ expectedLength then .error .contractError
    else
      .ok (fun objects =>
        if objects.length ≠ expectedLength then .error .arityError
        else
          match zipApply (outxforms.zip inxforms) objects with
          | some ws => .ok ws
          | Option.none => .error .encodeError)

/-- One row of an interface contract's `INPUT_SIGS` table: method name,
ordered parameter names, pre-encoder selector, input signature. -/
structure MethodRow where
  method : String
  names : List String
  inxform : String → Value → Option Value
  sig : String

/-- `_xformers(key_to_sig)`: builds the map from method name to
(parameter names, Transform), failing if any row is misconfigured. -/
def _xformers (table : List MethodRow) :
    Except DbusError
      (List (String × List String × (List Value → Except DbusError (List Value)))) :=
  table.mapM (fun row =>
    (_info_to_xformer row.names row.inxform row.sig).map
      (fun xf => (row.method, row.names, xf)))

/-- `list.index` on the declared parameter names, as used by the sort key
`lambda x: names.index(x[0])`. -/
def keyIdx (names : List String) (s : String) : Nat :=
  match names with
  | [] => 0
  | n :: rest => if n = s then 0 else keyIdx rest s + 1

/-- One insertion step of the stable sort of keyword items by declared
parameter position. -/
def insertPair (names : List String) (p : String × Value) :
    List (String × Value) → List (String × Value)
  | [] => [p]
  | q :: qs =>
    if keyIdx names p.1 ≤ keyIdx names q.1 then p :: q :: qs
    else q :: insertPair names p qs

/-- `sorted(kwargs.items(), key=lambda x: names.index(x[0]))`: a stable sort
of the supplied keyword items by the position of their name in the declared
parameter list. -/
def sortByKeyIdx (names : List String) :
    List (String × Value) → List (String × Value)
  | [] => []
  | p :: ps => insertPair names p (sortByKeyIdx names ps)

/-- `frozenset(names) == frozenset(keys)`: exact set equality of the
declared parameter names and the supplied argument names. -/
def setEq (as bs : List String) : Bool :=
  as.all (fun a => decide (a ∈ bs)) && bs.all (fun b => decide (b ∈ as))

/-- The call the generated proxy operation hands to the transport invoke
primitive: positional wire arguments, method name, interface qualifier. -/
structure InvokeCall where
  methodName : String
  args : List Value
  interface : String
deriving Repr

/-- The generated proxy operation `dbus_func(proxy_object, **kwargs)`:
checks the exact argument-name set (else `UnexpectedArgumentsError`),
reorders the supplied values into declared parameter order, runs the
Transform, and invokes the method on the interface with the wire-ready
positional arguments; transform errors propagate. -/
def dbus_func (names : List String)
    (func : List Value → Except DbusError (List Value))
    (methodName iface : String) (kwargs : List (String × Value)) :
    Except DbusError InvokeCall :=
  if setEq names (kwargs.map Prod.fst) then
    (func ((sortByKeyIdx names kwargs).map Prod.snd)).map
      (fun xs => InvokeCall.mk methodName xs iface)
  else .error .unexpectedArguments

/-- `build_method`: looks a method up in the contract's compiled `XFORMERS`
table and runs the generated operation on the supplied keyword arguments. -/
def buildMethodCall (iface : String) (table : List MethodRow)
    (method : String) (kwargs : List (String × Value)) :
    Except DbusError InvokeCall :=
  match _xformers table with
  | .error e => .error e
  | .ok xfs =>
    match xfs.lookup method with
    | Option.none => .error .keyError
    | some (names, xf) => dbus_func names xf method iface kwargs

/-- `ObjectManagerSpec.INTERFACE_NAME`. -/
def ObjectManagerSpec.INTERFACE_NAME : String := "org.freedesktop.DBus.ObjectManager"

/-- `ObjectManagerSpec.INPUT_SIGS`: the object-enumeration contract. -/
def ObjectManagerSpec.INPUT_SIGS : List MethodRow :=
  [⟨"GetManagedObjects", [], _FALSE, ""⟩]

/-- `FilesystemSpec.INTERFACE_NAME`. -/
def FilesystemSpec.INTERFACE_NAME : String := "org.storage.stratis1.filesystem"

/-- `FilesystemSpec.INPUT_SIGS`: the filesystem contract. -/
def FilesystemSpec.INPUT_SIGS : List MethodRow :=
  [⟨"CreateSnapshot", ["name"], _FALSE, "s"⟩,
   ⟨"SetName", ["name"], _FALSE, "s"⟩,
   ⟨"SetMountpoint", [], _FALSE, ""⟩,
   ⟨"SetQuota", ["quota"], _FALSE, "s"⟩]

/-- `ManagerSpec.INTERFACE_NAME`. -/
def ManagerSpec.INTERFACE_NAME : String := "org.storage.stratis1.Manager"

/-- `ManagerSpec.INPUT_SIGS`: the pool-manager contract. -/
def ManagerSpec.INPUT_SIGS : List MethodRow :=
  [⟨"ConfigureSimulator", ["denominator"], _FALSE, "u"⟩,
   ⟨"CreatePool", ["name", "redundancy", "force", "devices"],
      createPoolInxform, "s(bq)bas"⟩,
   ⟨"DestroyPool", ["pool_object_path"], _FALSE, "o"⟩]

/-- `PoolSpec.INTERFACE_NAME`. -/
def PoolSpec.INTERFACE_NAME : String := "org.storage.stratis1.pool"

/-- `PoolSpec.INPUT_SIGS`: the pool contract. -/
def PoolSpec.INPUT_SIGS : List MethodRow :=
  [⟨"AddCacheDevs", ["force", "devices"], _FALSE, "bas"⟩,
   ⟨"AddDevs", ["force", "devices"], _FALSE, "bas"⟩,
   ⟨"CreateFilesystems", ["specs"], createFilesystemsInxform, "a(ss(bt))"⟩,
   ⟨"DestroyFilesystems", ["filesystems"], _FALSE, "ao"⟩,
   ⟨"SetName", ["new_name"], _FALSE, "s"⟩]

/-- The startup arity invariant for one contract row: the signature
compiles into exactly as many top-level encoders as there are declared
parameter names. -/
def rowArityOk (row : MethodRow) : Bool :=
  sigCount row.sig == some row.names.length

theorem keyIdx_lt_length {names : List String} {a : String} (h : a ∈ names) :
    keyIdx names a < names.length := by
  induction names with
  | nil => cases h
  | cons n rest ih =>
    by_cases hna : n = a
    · simp [keyIdx, hna]
    · have ha : a ∈ rest := by
        cases h with
        | head => exact absurd rfl hna
        | tail _ h2 => exact h2
      simp only [keyIdx, if_neg hna, List.length_cons]
      exact Nat.succ_lt_succ (ih ha)

theorem get_keyIdx {names : List String} {a : String} (h : a ∈ names)
    (hl : keyIdx names a < names.length) :
    names.get ⟨keyIdx names a, hl⟩ = a := by
  induction names with
  | nil => cases h
  | cons n rest ih =>
    by_cases hna : n = a
    · simp [keyIdx, hna]
    · have ha : a ∈ rest := by
        cases h with
        | head => exact absurd rfl hna
        | tail _ h2 => exact h2
      have hl2 : keyIdx rest a < rest.length := keyIdx_lt_length ha
      simp only [keyIdx, if_neg hna]
      simpa using ih ha hl2

theorem keyIdx_get {names : List String} (hn : names.Nodup) (i : Nat)
    (h : i < names.length) :
    keyIdx names (names.get ⟨i, h⟩) = i := by
  induction names generalizing i with
  | nil => simp at h
  | cons n rest ih =>
    cases i with
    | zero => simp [keyIdx]
    | succ j =>
      have hj : j < rest.length := by simpa using h
      have hmem : rest.get ⟨j, hj⟩ ∈ rest := rest.get_mem _ _
      have hne : n ≠ rest.get ⟨j, hj⟩ := by
        intro he
        exact (List.nodup_cons.mp hn).1 (he ▸ hmem)
      have : (n :: rest).get ⟨j + 1, h⟩ = rest.get ⟨j, hj⟩ := rfl
      rw [this]
      simp only [keyIdx, if_neg hne]
      rw [ih (List.nodup_cons.mp hn).2 j hj]

theorem map_keyIdx_eq_range {names : List String} (hn : names.Nodup) :
    names.map (keyIdx names) = List.range names.length := by
  apply List.ext_get
  · simp
  · intro i h1 h2
    have h3 : i < names.length := by simpa using h1
    simp only [List.get_eq_getElem, List.getElem_map, List.getElem_range]
    have := keyIdx_get hn i h3
    simpa using this

theorem insertPair_perm (names : List String) (p : String × Value)
    (l : List (String × Value)) : (insertPair names p l).Perm (p :: l) := by
  induction l with
  | nil => exact List.Perm.refl _
  | cons q qs ih =>
    by_cases hle : keyIdx names p.1 ≤ keyIdx names q.1
    · simp [insertPair, hle]
    · simp only [insertPair, if_neg hle]
      exact (ih.cons q).trans (List.Perm.swap p q qs)

theorem sortByKeyIdx_perm (names : List String) (l : List (String × Value)) :
    (sortByKeyIdx names l).Perm l := by
  induction l with
  | nil => exact List.Perm.refl _
  | cons p ps ih =>
    exact (insertPair_perm names p (sortByKeyIdx names ps)).trans (ih.cons p)

theorem insertPair_pairwise (names : List String) (p : String × Value)
    (l : List (String × Value))
    (h : l.Pairwise (fun x y => keyIdx names x.1 ≤ keyIdx names y.1)) :
    (insertPair names p l).Pairwise
      (fun x y => keyIdx names x.1 ≤ keyIdx names y.1) := by
  induction l with
  | nil => simp [insertPair]
  | cons q qs ih =>
    have hq : ∀ y ∈ qs, keyIdx names q.1 ≤ keyIdx names y.1 :=
      (List.pairwise_cons.mp h).1
    have hqs := (List.pairwise_cons.mp h).2
    by_cases hle : keyIdx names p.1 ≤ keyIdx names q.1
    · simp only [insertPair, if_pos hle]
      refine List.pairwise_cons.mpr ⟨?_, h⟩
      intro y hy
      cases hy with
      | head => exact hle
      | tail _ hy2 => exact Nat.le_trans hle (hq y hy2)
    · simp only [insertPair, if_neg hle]
      refine List.pairwise_cons.mpr ⟨?_, ih hqs⟩
      intro y hy
      have hy2 : y = p ∨ y ∈ qs :=
        List.mem_cons.mp ((insertPair_perm names p qs).mem_iff.mp hy)
      cases hy2 with
      | inl he => exact he ▸ Nat.le_of_not_le hle
      | inr hy3 => exact hq y hy3

theorem sortByKeyIdx_pairwise (names : List String)
    (l : List (String × Value)) :
    (sortByKeyIdx names l).Pairwise
      (fun x y => keyIdx names x.1 ≤ keyIdx names y.1) := by
  induction l with
  | nil => simp [sortByKeyIdx]
  | cons p ps ih => exact insertPair_pairwise names p _ ih

theorem sorted_keys_eq (names ks : List String) (hn : names.Nodup)
    (hperm : ks.Perm names)
    (hs : ks.Pairwise (fun a b => keyIdx names a ≤ keyIdx names b)) :
    ks = names := by
  have hlen : ks.length = names.length := hperm.length_eq
  have hmap : (ks.map (keyIdx names)).Perm (List.range names.length) := by
    have := hperm.map (keyIdx names)
    rwa [map_keyIdx_eq_range hn] at this
  have hsorted : (ks.map (keyIdx names)).Sorted (· ≤ ·) :=
    List.pairwise_map.mpr hs
  have hrange : ks.map (keyIdx names) = List.range names.length :=
    List.eq_of_perm_of_sorted hmap hsorted (List.sorted_le_range _)
  apply List.ext_getElem hlen
  intro i h1 h2
  have hmem : ks[i] ∈ names := hperm.mem_iff.mp (List.getElem_mem h1)
  have hidx : keyIdx names ks[i] = i := by
    have e1 : (ks.map (keyIdx names)).get ⟨i, by simpa using h1⟩ =
        keyIdx names ks[i] := by simp
    have e2 := List.get_of_eq hrange ⟨i, by simpa using h1⟩
    rw [e1] at e2
    simpa using e2
  have h4 := get_keyIdx hmem (keyIdx_lt_length hmem)
  simp only [List.get_eq_getElem] at h4
  simp only [hidx] at h4
  exact h4.symm

theorem setEq_iff (as bs : List String) :
    setEq as bs = true ↔ ∀ s, s ∈ as ↔ s ∈ bs := by
  simp only [setEq, Bool.and_eq_true, List.all_eq_true, decide_eq_true_eq]
  constructor
  · intro h s
    exact ⟨fun hs => h.1 s hs, fun hs => h.2 s hs⟩
  · intro h
    exact ⟨fun a ha => (h a).mp ha, fun b hb => (h b).mpr hb⟩

theorem sortByKeyIdx_spec (names : List String)
    (kwargs : List (String × Value)) (hn : names.Nodup)
    (hk : (kwargs.map Prod.fst).Nodup)
    (hset : ∀ s, s ∈ names ↔ s ∈ kwargs.map Prod.fst) :
    (sortByKeyIdx names kwargs).length = names.length ∧
    (∀ i (h1 : i < (sortByKeyIdx names kwargs).length)
       (h2 : i < names.length),
      ((sortByKeyIdx names kwargs).get ⟨i, h1⟩).1 = names.get ⟨i, h2⟩) ∧
    (∀ i (h1 : i < (sortByKeyIdx names kwargs).length),
      (sortByKeyIdx names kwargs).get ⟨i, h1⟩ ∈ kwargs) := by
  have sperm : (sortByKeyIdx names kwargs).Perm kwargs :=
    sortByKeyIdx_perm names kwargs
  have keysperm : ((sortByKeyIdx names kwargs).map Prod.fst).Perm names := by
    refine (sperm.map Prod.fst).trans ?_
    exact (List.perm_ext_iff_of_nodup hk hn).mpr (fun x => (hset x).symm)
  have keyssorted : ((sortByKeyIdx names kwargs).map Prod.fst).Pairwise
      (fun a b => keyIdx names a ≤ keyIdx names b) :=
    List.pairwise_map.mpr (sortByKeyIdx_pairwise names kwargs)
  have keyseq : (sortByKeyIdx names kwargs).map Prod.fst = names :=
    sorted_keys_eq names _ hn keysperm keyssorted
  have hlen : (sortByKeyIdx names kwargs).length = names.length := by
    have := congrArg List.length keyseq
    simpa using this
  refine ⟨hlen, ?_, ?_⟩
  · intro i h1 h2
    have e1 : ((sortByKeyIdx names kwargs).map Prod.fst).get
        ⟨i, by simpa using h1⟩ =
        ((sortByKeyIdx names kwargs).get ⟨i, h1⟩).1 := by simp
    have e2 := List.get_of_eq keyseq ⟨i, by simpa using h1⟩
    rw [e1] at e2
    simp only [List.get_eq_getElem] at e2 ⊢
    rw [e2]
  · intro i h1
    exact sperm.mem_iff.mp ((sortByKeyIdx names kwargs).get_mem _ _)

/-- C5: `encode_option(value, default)` returns `(false, default)` when the
value is the absent sentinel and `(true, value)` for every non-absent value
(including values equal to the default); it is a total pure function. -/
theorem option_to_tuple_spec :
    (∀ d : Value, _option_to_tuple .null d = .tuple [.bool false, d]) ∧
    (∀ v d : Value, v ≠ .null →
      _option_to_tuple v d = .tuple [.bool true, v]) := by
  constructor
  · intro d
    rfl
  · intro v d hv
    cases v with
    | null => exact absurd rfl hv
    | bool b => rfl
    | int n => rfl
    | str s => rfl
    | list vs => rfl
    | tuple vs => rfl

/-- Witness for C5 at a non-absent value equal to nothing special. -/
theorem option_to_tuple_spec_witness :
    _option_to_tuple (.int 7) (.int 0) = .tuple [.bool true, .int 7] :=
  option_to_tuple_spec.2 (.int 7) (.int 0) (fun h => Value.noConfusion h)

/-- C10: the `CreatePool` pre-encoder selector is the identity for every
parameter name other than `redundancy`, and wraps `redundancy` with the
option encoding whose default is `0`. -/
theorem createPool_inxform_frame :
    (∀ n v, n ≠ "redundancy" → createPoolInxform n v = some v) ∧
    (∀ v, createPoolInxform "redundancy" v =
      some (_option_to_tuple v (.int 0))) := by
  constructor
  · intro n v hn
    simp only [createPoolInxform, if_neg hn]
  · intro v
    rfl

/-- Witness for C10: the `force` argument passes through unchanged. -/
theorem createPool_inxform_frame_witness :
    createPoolInxform "force" (.bool false) = some (.bool false) :=
  createPool_inxform_frame.1 "force" (.bool false) (by decide)

/-- C4: for every method of the four static interface contracts the number
of top-level encoders compiled from its input signature equals the number
of its declared parameter names, and compiling each contract's `XFORMERS`
table at startup succeeds (no `ContractError`). -/
theorem contracts_startup_invariant :
    ObjectManagerSpec.INPUT_SIGS.all rowArityOk = true ∧
    FilesystemSpec.INPUT_SIGS.all rowArityOk = true ∧
    ManagerSpec.INPUT_SIGS.all rowArityOk = true ∧
    PoolSpec.INPUT_SIGS.all rowArityOk = true ∧
    (_xformers ObjectManagerSpec.INPUT_SIGS).isOk = true ∧
    (_xformers FilesystemSpec.INPUT_SIGS).isOk = true ∧
    (_xformers ManagerSpec.INPUT_SIGS).isOk = true ∧
    (_xformers PoolSpec.INPUT_SIGS).isOk = true :=
  ⟨rfl, rfl, rfl, rfl, rfl, rfl, rfl, rfl⟩

/-- C6: calling the pool-manager `CreatePool` operation with
`name="p1"`, `redundancy=None`, `force=False`, `devices=["d1","d2"]`
reaches the transport invoke primitive with the wire arguments in declared
order, the `redundancy` argument encoded as `(false, 0)`. -/
theorem createPool_positional_routing :
    buildMethodCall ManagerSpec.INTERFACE_NAME ManagerSpec.INPUT_SIGS
      "CreatePool"
      [("name", .str "p1"), ("redundancy", .null), ("force", .bool false),
       ("devices", .list [.str "d1", .str "d2"])] =
    .ok ⟨"CreatePool",
      [.str "p1", .tuple [.bool false, .int 0], .bool false,
       .list [.str "d1", .str "d2"]],
      "org.storage.stratis1.Manager"⟩ := rfl

/-- C7: calling the pool `CreateFilesystems` operation with
`specs=[("fs1","/mnt/fs1",None)]` yields the wire arguments
`[("fs1","/mnt/fs1",(false,0))]`. -/
theorem createFilesystems_quota_encoding :
    buildMethodCall PoolSpec.INTERFACE_NAME PoolSpec.INPUT_SIGS
      "CreateFilesystems"
      [("specs", .list [.tuple [.str "fs1", .str "/mnt/fs1", .null]])] =
    .ok ⟨"CreateFilesystems",
      [.list [.tuple [.str "fs1", .str "/mnt/fs1",
        .tuple [.bool false, .int 0]]]],
      "org.storage.stratis1.pool"⟩ := rfl

theorem zipApply_spec
    (fgs : List ((Value → Option (Value × Nat)) × (Value → Option Value)))
    (as ws : List Value) (h : zipApply fgs as = some ws) :
    as.length = fgs.length ∧ ws.length = as.length ∧
    ∀ i (h1 : i < fgs.length) (h2 : i < as.length) (h3 : i < ws.length),
      ∃ (b : Value) (out : Value × Nat),
        (fgs.get ⟨i, h1⟩).2 (as.get ⟨i, h2⟩) = some b ∧
        (fgs.get ⟨i, h1⟩).1 b = some out ∧
        ws.get ⟨i, h3⟩ = out.1 := by
  induction fgs generalizing as ws with
  | nil =>
    cases as with
    | nil =>
      simp only [zipApply, Option.some.injEq] at h
      subst h
      exact ⟨rfl, rfl, fun i h1 => absurd h1 (by simp)⟩
    | cons a arest => simp [zipApply] at h
  | cons fg fgrest ih =>
    cases as with
    | nil => simp [zipApply] at h
    | cons a arest =>
      obtain ⟨f, g⟩ := fg
      simp only [zipApply] at h
      cases hga : g a with
      | none => rw [hga] at h; cases h
      | some b =>
        rw [hga] at h
        dsimp only at h
        cases hfb : f b with
        | none => rw [hfb] at h; cases h
        | some out =>
          rw [hfb] at h
          dsimp only at h
          cases hza : zipApply fgrest arest with
          | none => rw [hza] at h; cases h
          | some wrest =>
            rw [hza] at h
            simp only [Option.some.injEq] at h
            subst h
            obtain ⟨ihl1, ihl2, ihp⟩ := ih arest wrest hza
            refine ⟨by simpa using ihl1, by simpa using ihl2, ?_⟩
            intro i h1 h2 h3
            cases i with
            | zero => exact ⟨b, out, hga, hfb, rfl⟩
            | succ j =>
              exact ihp j (by simpa using h1) (by simpa using h2)
                (by simpa using h3)

/-- C1: a Transform built from parameter names, a pre-encoder selector and a
signature, applied to a value list of the declared length, returns the
ordered list whose i-th element is the i-th compiled wire encoder applied to
the i-th pre-encoder applied to the i-th value. -/
theorem transform_positional_encoding (names : List String)
    (inxform : String → Value → Option Value) (sig : String)
    (xf : List Value → Except DbusError (List Value))
    (hx : _info_to_xformer names inxform sig = .ok xf)
    (vals : List Value) (hlen : vals.length = names.length)
    (ws : List Value) (hap : xf vals = .ok ws) :
    ∃ pairs, xformers sig = some pairs ∧ pairs.length = names.length ∧
      ws.length = names.length ∧
      ∀ i (h1 : i < names.length) (h2 : i < vals.length) (h3 : i < ws.length)
        (h4 : i < pairs.length),
        ∃ (pre : Value) (out : Value × Nat),
          inxform (names.get ⟨i, h1⟩) (vals.get ⟨i, h2⟩) = some pre ∧
          (pairs.get ⟨i, h4⟩).1 pre = some out ∧
          ws.get ⟨i, h3⟩ = out.1 := by
  unfold _info_to_xformer at hx
  cases hpairs : xformers sig with
  | none => rw [hpairs] at hx; cases hx
  | some pairs =>
    rw [hpairs] at hx
    dsimp only at hx
    by_cases hvalid : (pairs.map Prod.fst).length ≠ names.length
    · rw [if_pos hvalid] at hx; cases hx
    · rw [if_neg hvalid] at hx
      have hplen : pairs.length = names.length := by
        have := not_not.mp hvalid
        simpa using this
      injection hx with hxf
      rw [← hxf] at hap
      dsimp only at hap
      rw [if_neg (by omega)] at hap
      cases hza : zipApply ((pairs.map Prod.fst).zip (names.map inxform))
          vals with
      | none => rw [hza] at hap; cases hap
      | some ws0 =>
        rw [hza] at hap
        dsimp only at hap
        injection hap with hws
        subst hws
        obtain ⟨hzl1, hzl2, hzp⟩ := zipApply_spec _ _ _ hza
        refine ⟨pairs, rfl, hplen, by omega, ?_⟩
        intro i h1 h2 h3 h4
        have hz1 : i < ((pairs.map Prod.fst).zip
            (names.map inxform)).length := by
          simp only [List.length_zip, List.length_map]
          omega
        obtain ⟨b, out, hgb, hfo, hwi⟩ := hzp i hz1 h2 h3
        have egets : ((pairs.map Prod.fst).zip (names.map inxform)).get
            ⟨i, hz1⟩ = ((pairs.get ⟨i, h4⟩).1, inxform (names.get ⟨i, h1⟩)) := by
          simp only [List.get_eq_getElem, List.getElem_zip, List.getElem_map]
        rw [egets] at hgb hfo
        exact ⟨b, out, hgb, hfo, hwi⟩

/-- Witness for C1: the filesystem `SetName` Transform on one string value. -/
theorem transform_positional_encoding_witness :
    ∃ (xf : List Value → Except DbusError (List Value)) (ws : List Value),
      _info_to_xformer ["name"] _FALSE "s" = .ok xf ∧
      xf [Value.str "fs"] = .ok ws ∧
      (∃ pairs, xformers "s" = some pairs ∧ pairs.length = 1 ∧
        ws.length = 1 ∧
        ∀ i (h1 : i < (["name"] : List String).length)
          (h2 : i < ([Value.str "fs"] : List Value).length)
          (h3 : i < ws.length) (h4 : i < pairs.length),
          ∃ (pre : Value) (out : Value × Nat),
            _FALSE ((["name"] : List String).get ⟨i, h1⟩)
              (([Value.str "fs"] : List Value).get ⟨i, h2⟩) = some pre ∧
            (pairs.get ⟨i, h4⟩).1 pre = some out ∧
            ws.get ⟨i, h3⟩ = out.1) :=
  ⟨_, _, rfl, rfl,
    transform_positional_encoding ["name"] _FALSE "s" _ rfl
      [Value.str "fs"] rfl _ rfl⟩

/-- C2: with the supplied argument-name set exactly the declared parameter
names (a Python keyword dictionary: duplicate-free keys), the generated
operation hands the method's Transform the values reordered into declared
parameter order and invokes the method on the owning interface with the
transformed positional arguments. -/
theorem proxy_reorders_and_invokes (names : List String)
    (func : List Value → Except DbusError (List Value))
    (methodName iface : String) (kwargs : List (String × Value))
    (hn : names.Nodup) (hk : (kwargs.map Prod.fst).Nodup)
    (hset : ∀ s, s ∈ names ↔ s ∈ kwargs.map Prod.fst) :
    ∃ args : List Value,
      dbus_func names func methodName iface kwargs =
        (func args).map (fun xs => InvokeCall.mk methodName xs iface) ∧
      args.length = names.length ∧
      ∀ i (h1 : i < names.length) (h2 : i < args.length),
        (names.get ⟨i, h1⟩, args.get ⟨i, h2⟩) ∈ kwargs := by
  obtain ⟨hL, hKey, hMem⟩ := sortByKeyIdx_spec names kwargs hn hk hset
  refine ⟨(sortByKeyIdx names kwargs).map Prod.snd, ?_, by simpa using hL, ?_⟩
  · unfold dbus_func
    rw [if_pos ((setEq_iff _ _).mpr hset)]
  · intro i h1 h2
    have h3 : i < (sortByKeyIdx names kwargs).length := by simpa using h2
    have e1 : ((sortByKeyIdx names kwargs).map Prod.snd).get ⟨i, h2⟩ =
        ((sortByKeyIdx names kwargs).get ⟨i, h3⟩).2 := by simp
    rw [e1, ← hKey i h3 h1]
    simpa using hMem i h3

/-- Witness for C2: the pool `AddDevs` parameter names with the keyword
arguments supplied in the opposite order. -/
theorem proxy_reorders_and_invokes_witness :
    ∃ args : List Value,
      dbus_func ["force", "devices"] (fun vs => Except.ok vs) "AddDevs"
          PoolSpec.INTERFACE_NAME
          [("devices", Value.list []), ("force", Value.bool true)] =
        (Except.ok args).map
          (fun xs => InvokeCall.mk "AddDevs" xs PoolSpec.INTERFACE_NAME) ∧
      args.length = (["force", "devices"] : List String).length ∧
      ∀ i (h1 : i < (["force", "devices"] : List String).length)
        (h2 : i < args.length),
        ((["force", "devices"] : List String).get ⟨i, h1⟩,
          args.get ⟨i, h2⟩) ∈
          [("devices", Value.list []), ("force", Value.bool true)] :=
  proxy_reorders_and_invokes ["force", "devices"] (fun vs => Except.ok vs)
    "AddDevs" PoolSpec.INTERFACE_NAME
    [("devices", Value.list []), ("force", Value.bool true)]
    (by simp) (by simp)
    (by intro s; simp [or_comm])

/-- C3: the generated operation delegates to the transform-and-invoke path
exactly when the supplied argument-name set equals the declared
parameter-name set; any superset, subset or disjoint name set fails with
`UnexpectedArgumentsError` and the transport is never reached. -/
theorem proxy_name_set_validation (names : List String)
    (func : List Value → Except DbusError (List Value))
    (methodName iface : String) (kwargs : List (String × Value)) :
    ((¬ ∀ s, s ∈ names ↔ s ∈ kwargs.map Prod.fst) →
      dbus_func names func methodName iface kwargs =
        .error .unexpectedArguments) ∧
    ((∀ s, s ∈ names ↔ s ∈ kwargs.map Prod.fst) →
      dbus_func names func methodName iface kwargs =
        (func ((sortByKeyIdx names kwargs).map Prod.snd)).map
          (fun xs => InvokeCall.mk methodName xs iface)) := by
  constructor
  · intro h
    unfold dbus_func
    rw [if_neg (fun hc => h ((setEq_iff _ _).mp hc))]
  · intro h
    unfold dbus_func
    rw [if_pos ((setEq_iff _ _).mpr h)]

/-- Witness for C3: a disjoint argument-name set is rejected. -/
theorem proxy_name_set_validation_witness :
    dbus_func ["a"] (fun vs => Except.ok vs) "M" "I" [("b", Value.int 0)] =
      .error .unexpectedArguments :=
  (proxy_name_set_validation ["a"] (fun vs => Except.ok vs) "M" "I"
      [("b", Value.int 0)]).1
    (fun h => by have := (h "a").mp (by simp); simp at this)

/-- C8: for a signature that compiles into `n` top-level encoders, building
a Transform fails with `ContractError` exactly when `n` differs from the
number of declared parameter names, and succeeds (no error) otherwise. -/
theorem info_to_xformer_contract_check (names : List String)
    (inxform : String → Value → Option Value) (sig : String) (n : Nat)
    (hsig : sigCount sig = some n) :
    (n ≠ names.length →
      _info_to_xformer names inxform sig = .error .contractError) ∧
    (n = names.length →
      ∃ xf, _info_to_xformer names inxform sig = .ok xf) := by
  unfold sigCount at hsig
  cases hp : parseSig sig with
  | none => rw [hp] at hsig; cases hsig
  | some ts =>
    rw [hp] at hsig
    dsimp only [Option.map] at hsig
    injection hsig with hlen
    unfold _info_to_xformer xformers
    rw [hp]
    dsimp only [Option.map]
    constructor
    · intro hne
      rw [if_pos (by simp only [List.length_map]; omega)]
    · intro heq
      rw [if_neg (by simp only [List.length_map]; omega)]
      exact ⟨_, rfl⟩

/-- Witness for C8: a two-component signature against one declared name is
rejected at construction time with `ContractError`. -/
theorem info_to_xformer_contract_check_witness :
    _info_to_xformer ["a"] _FALSE "ss" = .error .contractError :=
  (info_to_xformer_contract_check ["a"] _FALSE "ss" 2 rfl).1 (by decide)

/-- C9: a Transform applied to a value list whose length differs from the
declared parameter count fails with `ArityError`; and a call through the
generated proxy operation (whose keyword arguments form a dictionary) can
never produce `ArityError`, because the exact name-set check forces the
reordered value list to have the declared length. -/
theorem transform_arity_defense :
    (∀ (names : List String) (inxform : String → Value → Option Value)
       (sig : String) (xf : List Value → Except DbusError (List Value)),
       _info_to_xformer names inxform sig = .ok xf →
       ∀ vals : List Value, vals.length ≠ names.length →
       xf vals = .error .arityError) ∧
    (∀ (names : List String) (inxform : String → Value → Option Value)
       (sig : String) (xf : List Value → Except DbusError (List Value))
       (methodName iface : String) (kwargs : List (String × Value)),
       _info_to_xformer names inxform sig = .ok xf →
       names.Nodup → (kwargs.map Prod.fst).Nodup →
       dbus_func names xf methodName iface kwargs ≠
         .error .arityError) := by
  constructor
  · intro names inxform sig xf hx vals hvals
    unfold _info_to_xformer at hx
    cases hpairs : xformers sig with
    | none => rw [hpairs] at hx; cases hx
    | some pairs =>
      rw [hpairs] at hx
      dsimp only at hx
      by_cases hvalid : (pairs.map Prod.fst).length ≠ names.length
      · rw [if_pos hvalid] at hx; cases hx
      · rw [if_neg hvalid] at hx
        injection hx with hxf
        rw [← hxf]
        dsimp only
        rw [if_pos hvals]
  · intro names inxform sig xf methodName iface kwargs hx hn hk
    by_cases hse : setEq names (kwargs.map Prod.fst) = true
    · have hset := (setEq_iff _ _).mp hse
      obtain ⟨hL, _, _⟩ := sortByKeyIdx_spec names kwargs hn hk hset
      unfold dbus_func
      rw [if_pos hse]
      unfold _info_to_xformer at hx
      cases hpairs : xformers sig with
      | none => rw [hpairs] at hx; cases hx
      | some pairs =>
        rw [hpairs] at hx
        dsimp only at hx
        by_cases hvalid : (pairs.map Prod.fst).length ≠ names.length
        · rw [if_pos hvalid] at hx; cases hx
        · rw [if_neg hvalid] at hx
          injection hx with hxf
          rw [← hxf]
          dsimp only
          rw [if_neg (by simp only [List.length_map]; omega)]
          cases zipApply ((pairs.map Prod.fst).zip (names.map inxform))
              ((sortByKeyIdx names kwargs).map Prod.snd) with
          | none =>
            intro hc
            injection hc with he
            exact DbusError.noConfusion he
          | some ws =>
            intro hc
            injection hc
    · unfold dbus_func
      rw [if_neg (by simpa using hse)]
      intro hc
      injection hc with he
      exact DbusError.noConfusion he

/-- Witness for C9: the filesystem `SetName` Transform rejects an empty
value list, and the proxy call with the exact argument names cannot produce
`ArityError`. -/
theorem transform_arity_defense_witness :
    ∃ xf : List Value → Except DbusError (List Value),
      _info_to_xformer ["name"] _FALSE "s" = .ok xf ∧
      xf [] = .error .arityError ∧
      dbus_func ["name"] xf "SetName" FilesystemSpec.INTERFACE_NAME
        [("name", Value.str "fs")] ≠ .error .arityError :=
  ⟨_, rfl,
    transform_arity_defense.1 ["name"] _FALSE "s" _ rfl [] (by decide),
    transform_arity_defense.2 ["name"] _FALSE "s" _ "SetName"
      FilesystemSpec.INTERFACE_NAME [("name", Value.str "fs")] rfl
      (by simp) (by simp)⟩
